import Mathlib

/-!
# Verification of the LeadPro reconciliation, mining and lifecycle logic

A shallow embedding of the lead/campaign data model and the algorithms of the
LeadPro application: the startup reconciliation merge (`initMerge`), the
incremental mining fold (`foldBatch`, `mineLoop`), phone-based duplicate
detection (`findPhoneDuplicates`), and the user-initiated lead updates.
Strings stay strings, JS `Map`/`Record` objects become insertion-ordered
association lists (`recordSet`), and JS falsiness of the empty string is
modelled explicitly where the code relies on it.
-/

namespace LeadPro

/-- Lead workflow status, from `types.ts` (`BusinessInfo.status`). -/
inductive Status where
  | new
  | contacted
  | interested
  | closed
  | rejected
  | outdated
deriving DecidableEq, Repr

/-- Phone line type, from `types.ts` (`BusinessInfo.type`). -/
inductive LType where
  | mobile
  | landline
  | unknown
deriving DecidableEq, Repr

/-- A lead record (`BusinessInfo` in `types.ts`).  `campaignId` and
`lastSeenAt` are optional, as in the TypeScript interface. -/
structure Lead where
  id : String
  name : String
  phone : String
  whatsappUrl : String
  instagram : Option String := none
  facebook : Option String := none
  email : Option String := none
  website : Option String := none
  status : Status
  neighborhood : String
  type : LType
  notes : Option String := none
  lastSeenAt : Option String := none
  campaignId : Option String := none
deriving DecidableEq, Repr

/-- A campaign record (`Campaign` in `types.ts`). -/
structure Campaign where
  id : String
  niche : String
  city : String
  createdAt : String
  lastSyncAt : String
deriving DecidableEq, Repr

/-- The character class `[a-z0-9]` of the normalization regexes. -/
def isLowerAlnum (c : Char) : Bool :=
  ('a' ≤ c && c ≤ 'z') || ('0' ≤ c && c ≤ '9')

/-- JS `String.prototype.trim` on a character list: drop whitespace from
both ends. -/
def jsTrimList (l : List Char) : List Char :=
  ((l.dropWhile Char.isWhitespace).reverse.dropWhile Char.isWhitespace).reverse

/-- The embedding of
`const normalize = (text) => (text || '').toLowerCase().replace(/[^a-z0-9]/g, '').trim()`
from `App.tsx`: lower-case, keep only `[a-z0-9]`, trim.  Lower-casing is
per-character (`Char.toLower`); a non-ASCII letter differs from JS only in
its lowered form, and either form is dropped by the filter. -/
def normalize (text : String) : String :=
  String.mk (jsTrimList ((text.data.map Char.toLower).filter isLowerAlnum))

/-- How a JS template literal renders an optional `campaignId`:
`undefined` interpolates as the string `"undefined"`. -/
def cidString (c : Option String) : String :=
  match c with
  | some s => s
  | none => "undefined"

/-- The key used by the merge to deduplicate leads:
the template literal `` `${l.id}_${l.campaignId}` `` from `App.tsx`. -/
def leadKey (l : Lead) : String :=
  l.id ++ "_" ++ cidString l.campaignId

/-- Insertion-ordered map update, the semantics shared by JS `Map.set` and
JS `Record` assignment: overwriting an existing key keeps its original
position, a fresh key is appended. -/
def recordSet (m : List (String × α)) (k : String) (v : α) : List (String × α) :=
  if m.any (fun p => p.1 == k) then
    m.map (fun p => if p.1 == k then (k, v) else p)
  else
    m ++ [(k, v)]

/-- Lookup in an insertion-ordered association list (JS `Map.get` /
`Record` index). -/
def assocLookup (m : List (String × α)) (k : String) : Option α :=
  (m.find? (fun p => p.1 == k)).map (fun p => p.2)

/-- `Array.from(map.values())`: the values in insertion order. -/
def mapValues (m : List (String × α)) : List α :=
  m.map (fun p => p.2)

/-- Build an insertion-ordered map from a list under a key function
(the `forEach`/`map.set` loops of `init` in `App.tsx`). -/
def mapFromList (key : α → String) (xs : List α) : List (String × α) :=
  xs.foldl (fun m x => recordSet m (key x) x) []

/-- Union of local and cloud campaigns keyed by `id`, cloud written last
(remote wins), from `init` in `App.tsx`. -/
def unionCampaigns (localC cloudC : List Campaign) : List Campaign :=
  mapValues (mapFromList (fun c => c.id) (localC ++ cloudC))

/-- Union of local and cloud leads keyed by `` `${id}_${campaignId}` ``,
cloud written last (remote wins), from `init` in `App.tsx`. -/
def unionLeads (localL cloudL : List Lead) : List Lead :=
  mapValues (mapFromList leadKey (localL ++ cloudL))

/-- Accumulator of the duplicate-campaign collapse loop in `init`:
`nicheMap`, `campaignsToRemove` and `leadRemapping`. -/
structure CollapseAcc where
  nicheMap : List (String × Campaign)
  toRemove : List String
  remap : List (String × String)
deriving Repr

/-- One iteration of the `rawCampaigns.forEach` collapse loop in `init`:
a campaign whose normalized niche is already in `nicheMap` is marked for
removal and remapped to the first-seen (canonical) campaign, otherwise it
becomes the canonical campaign of its normalized niche. -/
def collapseStep (acc : CollapseAcc) (c : Campaign) : CollapseAcc :=
  match assocLookup acc.nicheMap (normalize c.niche) with
  | some original =>
      { acc with
          toRemove := acc.toRemove ++ [c.id],
          remap := recordSet acc.remap c.id original.id }
  | none =>
      { acc with nicheMap := acc.nicheMap ++ [(normalize c.niche, c)] }

/-- The full collapse loop over the unioned campaign list. -/
def collapse (cs : List Campaign) : CollapseAcc :=
  cs.foldl collapseStep ⟨[], [], []⟩

/-- The lead remap of `init`:
`campaignId: leadRemapping[l.campaignId] || l.campaignId`.  The JS `||`
falls back to the old `campaignId` when the looked-up canonical id is the
empty string (falsy) or the key is absent. -/
def remapLead (remap : List (String × String)) (l : Lead) : Lead :=
  match assocLookup remap (cidString l.campaignId) with
  | some v => if v = "" then l else { l with campaignId := some v }
  | none => l

/-- Result of the startup reconciliation merge: the surviving campaigns and
leads, plus the ids marked for removal and the remap table (used for the
cloud-side deletions and for stating invariants). -/
structure MergeResult where
  campaigns : List Campaign
  leads : List Lead
  removed : List String
  remap : List (String × String)
deriving Repr

/-- The reconciliation merge of `init` in `App.tsx` (success path, cloud
reachable): union both replicas (remote wins), collapse duplicate campaigns
by normalized niche, remap leads of removed campaigns (only when something
was removed, as in the code), then deduplicate leads by
`` `${id}_${campaignId}` ``. -/
def initMerge (localC cloudC : List Campaign) (localL cloudL : List Lead) :
    MergeResult :=
  let rawC := unionCampaigns localC cloudC
  let rawL := unionLeads localL cloudL
  let acc := collapse rawC
  let rawC2 := if acc.toRemove.length > 0 then mapValues acc.nicheMap else rawC
  let rawL2 := if acc.toRemove.length > 0 then rawL.map (remapLead acc.remap) else rawL
  let uniqueLeads := mapValues (mapFromList leadKey rawL2)
  ⟨rawC2, uniqueLeads, acc.toRemove, acc.remap⟩

/-! ## Lead id derivation (`createNormalizedId` in `services/gemini.ts`) -/

/-- JS `(s || '').replace(/\D/g, '')`: keep only the digits. -/
def digitsOf (s : String) : List Char :=
  s.data.filter (fun c => '0' ≤ c && c ≤ '9')

/-- The embedding of `createNormalizedId(name, phone, neighborhood)` from
`services/gemini.ts`: a 15-char lowercased alphanumeric name fragment, a
10-char neighborhood fragment and the last 8 phone digits, joined by `_`. -/
def createNormalizedId (name phone neighborhood : String) : String :=
  let cleanName := String.mk (((name.data.map Char.toLower).filter isLowerAlnum).take 15)
  let cleanPhone := String.mk ((digitsOf phone).drop ((digitsOf phone).length - 8))
  let cleanNeighborhood := String.mk (((neighborhood.data.map Char.toLower).filter isLowerAlnum).take 10)
  cleanName ++ "_" ++ cleanNeighborhood ++ "_" ++ cleanPhone

/-! ## The mining fold (`handleStartMining` in `App.tsx`, per-batch body) -/

/-- The existence test of the mining loop:
`(l.id === biz.id && l.campaignId === targetCampaignId) || (bizPhone !== '' && normalize(l.phone) === bizPhone)`
over the current accumulated lead set. -/
def leadExists (s : List Lead) (cid : String) (b : Lead) : Bool :=
  s.any (fun l =>
    (l.id == b.id && l.campaignId == some cid) ||
    (normalize b.phone != "" && normalize l.phone == normalize b.phone))

/-- Counters published by a mining run (`totalNew`, `totalSkipped`,
`totalMobile`, `totalLandline`). -/
structure FoldCounts where
  lnew : Nat
  skipped : Nat
  mobile : Nat
  landline : Nat
deriving DecidableEq, Repr

/-- The `result.businesses.forEach` fold of `handleStartMining`: each
candidate not flagged by `leadExists` is stamped with the target
`campaignId` and a fresh `lastSeenAt` and appended to the accumulated lead
set; otherwise it counts as skipped.  A non-mobile accepted lead counts as
landline, as in the code's `else totalLandline++`. -/
def foldBatch (s : List Lead) (cid now : String) : List Lead → List Lead × FoldCounts
  | [] => (s, ⟨0, 0, 0, 0⟩)
  | b :: bs =>
    if leadExists s cid b then
      let r := foldBatch s cid now bs
      (r.1, { r.2 with skipped := r.2.skipped + 1 })
    else
      let accepted : Lead := { b with campaignId := some cid, lastSeenAt := some now }
      let r := foldBatch (s ++ [accepted]) cid now bs
      if b.type = LType.mobile then
        (r.1, { r.2 with lnew := r.2.lnew + 1, mobile := r.2.mobile + 1 })
      else
        (r.1, { r.2 with lnew := r.2.lnew + 1, landline := r.2.landline + 1 })

/-! ## The sequential mining loop with error classification -/

/-- Does the second character list start the first one? -/
def startsWithChars : List Char → List Char → Bool
  | _, [] => true
  | [], _ :: _ => false
  | c :: cs, p :: ps => c == p && startsWithChars cs ps

/-- Does the second character list occur somewhere in the first one? -/
def occursInChars : List Char → List Char → Bool
  | s, p =>
    startsWithChars s p ||
      match s with
      | [] => false
      | _ :: t => occursInChars t p

/-- JS `String.prototype.includes`: substring occurrence (every string
includes the empty string). -/
def containsSubstr (s pat : String) : Bool :=
  occursInChars s.data pat.data

/-- The quota-halt message of `handleStartMining`. -/
def quotaMsg : String :=
  "Cota diária do Google atingida. Mineramos até onde foi possível. Tente novamente em 1 hora para pegar o restante dos bairros."

/-- The missing-credential message of `handleStartMining`. -/
def configMsg : String :=
  "Erro: API Key não configurada. Vá na aba Configurações e insira sua chave do Google Gemini."

/-- The transient-error message of `handleStartMining`. -/
def genericMsg : String :=
  "Ocorreu um erro inesperado. Verifique sua conexão e sua chave de API."

/-- Outcome of one `searchBusinesses` call: a batch of candidate leads, or
a thrown error with its message. -/
inductive MineOutcome where
  | ok (businesses : List Lead)
  | err (msg : String)
deriving Repr

/-- An error outcome whose message carries a halting signal
(`msg.includes('429')` or `msg.includes('API_KEY_MISSING')`). -/
def isHalting : MineOutcome → Bool
  | MineOutcome.ok _ => false
  | MineOutcome.err m => containsSubstr m "429" || containsSubstr m "API_KEY_MISSING"

/-- The mutable state threaded through the mining loop:
`currentLeadsState`, the four counters, `errorMessage`, and
`processedBairros`. -/
structure MineState where
  leads : List Lead
  counts : FoldCounts
  errorMessage : Option String
  processed : List String
deriving Repr

/-- Add a batch's counters onto the running totals. -/
def addCounts (a b : FoldCounts) : FoldCounts :=
  ⟨a.lnew + b.lnew, a.skipped + b.skipped, a.mobile + b.mobile, a.landline + b.landline⟩

/-- The `for` loop of `handleStartMining` over the selected neighborhoods,
each paired with the outcome of its `searchBusinesses` call.  A successful
batch is folded into the accumulated lead set and the neighborhood is
recorded as processed; an error is classified by its message: `429` sets
the quota message and breaks, `API_KEY_MISSING` sets the configuration
message and breaks, anything else sets the generic message and continues. -/
def mineLoop (cid now : String) (steps : List (String × MineOutcome)) (st : MineState) :
    MineState :=
  match steps with
  | [] => st
  | (barrio, MineOutcome.ok bizs) :: rest =>
      let r := foldBatch st.leads cid now bizs
      mineLoop cid now rest
        { st with
            leads := r.1,
            counts := addCounts st.counts r.2,
            processed := st.processed ++ [barrio] }
  | (_, MineOutcome.err m) :: rest =>
      if containsSubstr m "429" then
        { st with errorMessage := some quotaMsg }
      else if containsSubstr m "API_KEY_MISSING" then
        { st with errorMessage := some configMsg }
      else
        mineLoop cid now rest { st with errorMessage := some genericMsg }

/-- JS truthiness check `!errorMessage` for a `string | null` value. -/
def isFalsyMsg (m : Option String) : Bool :=
  match m with
  | none => true
  | some s => s = ""

/-- The tail of `handleStartMining`: run the loop from a fresh state, then
decide the auto-navigation of the `finally` block.  React state setters do
not mutate the binding captured by the running closure, so the
`if (!errorMessage && totalNew > 0)` guard reads the `errorMessage` value
the handler closed over when it was created (`closureError` here), not the
message set during the run. -/
def handleStartMining (closureError : Option String) (cid now : String)
    (steps : List (String × MineOutcome)) (initialLeads : List Lead) :
    MineState × Bool :=
  let st := mineLoop cid now steps ⟨initialLeads, ⟨0, 0, 0, 0⟩, none, []⟩
  (st, isFalsyMsg closureError && st.counts.lnew > 0)

/-! ## Phone-based duplicate detection (`handleCleanDuplicates` in `App.tsx`) -/

/-- The sort key `new Date(l.lastSeenAt || 0).getTime()`: a missing or
empty `lastSeenAt` is the epoch (0); otherwise the JS `Date` parse of the
timestamp string, supplied as the valuation `τ`. -/
def dateVal (τ : String → Nat) (l : Lead) : Nat :=
  match l.lastSeenAt with
  | none => 0
  | some s => if s = "" then 0 else τ s

/-- The comparator-induced order of
`[...targetLeads].sort((a, b) => dateB - dateA)`: `a` may precede `b`
exactly when `a` is at least as recent. -/
def moreRecent (τ : String → Nat) (a b : Lead) : Prop :=
  dateVal τ b ≤ dateVal τ a

instance (τ : String → Nat) : DecidableRel (moreRecent τ) :=
  fun a b => Nat.decLe _ _

/-- The sort `[...targetLeads].sort((a, b) => dateB - dateA)`:
`Array.prototype.sort` is stable and orders by the comparator, which a
stable insertion sort reproduces (descending by `dateVal`, original order
on ties). -/
def sortByDateDesc (τ : String → Nat) (l : List Lead) : List Lead :=
  List.insertionSort (moreRecent τ) l

/-- The scan of `handleCleanDuplicates`: walk the sorted leads keeping the
set of seen normalized phones; a lead whose normalized phone is non-empty
and already seen goes to `dupesFound`, every other lead goes to
`keptLeads` (and its phone, when non-empty, becomes seen).  Returns
`(keptLeads, dupesFound)`. -/
def scanDupes (seen : List String) : List Lead → List Lead × List Lead
  | [] => ([], [])
  | l :: rest =>
      let phone := normalize l.phone
      if phone != "" && seen.contains phone then
        let r := scanDupes seen rest
        (r.1, l :: r.2)
      else
        let seen2 := if phone != "" then seen ++ [phone] else seen
        let r := scanDupes seen2 rest
        (l :: r.1, r.2)

/-- `findPhoneDuplicates` over a list of in-scope leads: sort by
`lastSeenAt` descending, then scan with an initially empty seen set. -/
def findPhoneDuplicates (τ : String → Nat) (target : List Lead) :
    List Lead × List Lead :=
  scanDupes [] (sortByDateDesc τ target)

/-- The scope selection of `handleCleanDuplicates`: with an active
campaign, the leads of every campaign sharing (string-equal) niche with
it, provided that niche is truthy; otherwise all leads. -/
def targetLeadsFor (leads : List Lead) (campaigns : List Campaign)
    (activeCampaignId : Option String) : List Lead :=
  match activeCampaignId with
  | none => leads
  | some cid =>
      leads.filter (fun l =>
        match (campaigns.find? (fun c => c.id == cid)).map (fun c => c.niche) with
        | some niche =>
            if niche = "" then false
            else
              match l.campaignId with
              | some lc => ((campaigns.filter (fun c => c.niche == niche)).map
                  (fun c => c.id)).contains lc
              | none => false
        | none => false)

/-! ## User-initiated lead updates (`App.tsx` detail view) -/

/-- The status-button click: replace every lead whose `id` equals the
selected lead's `id` by a copy of the selected lead with the chosen
status (`prev.map(l => l.id === selectedLead.id ? updatedLead : l)`). -/
def applyStatusClick (leads : List Lead) (selected : Lead) (s : Status) : List Lead :=
  leads.map (fun l => if l.id == selected.id then { selected with status := s } else l)

/-- `handleGeneratePitch` on success: replace every lead whose `id` equals
the given lead's `id` by a copy of that lead with the pitch as notes. -/
def applyPitchResult (leads : List Lead) (lead : Lead) (pitch : String) : List Lead :=
  leads.map (fun l => if l.id == lead.id then { lead with notes := some pitch } else l)

/-- The WhatsApp-link click: set `status` to `contacted` on every lead
whose `id` equals the selected lead's `id`
(`leads.map(l => l.id === selectedLead.id ? { ...l, status: 'contacted' } : l)`). -/
def applyContactClick (leads : List Lead) (selectedId : String) : List Lead :=
  leads.map (fun l => if l.id == selectedId then { l with status := Status.contacted } else l)

/-- The lead handed to `saveLeadsToCloud` by the WhatsApp-link click:
`up.find(x => x.id === selectedLead.id)`. -/
def contactPersistPayload (up : List Lead) (selectedId : String) : Option Lead :=
  up.find? (fun l => l.id == selectedId)

/-! ## Generic facts about insertion-ordered maps -/

/-- Key/value discipline of a map built under a key function: every stored
key is the key of its value, and keys never repeat. -/
def GoodMap (key : α → String) (m : List (String × α)) : Prop :=
  (∀ p ∈ m, p.1 = key p.2) ∧ (m.map Prod.fst).Nodup

theorem mem_recordSet {m : List (String × α)} {k : String} {v : α} {p : String × α}
    (hp : p ∈ recordSet m k v) : p ∈ m ∨ p = (k, v) := by
  unfold recordSet at hp
  split at hp
  · rcases List.mem_map.mp hp with ⟨q, hq, hfq⟩
    by_cases hqk : (q.1 == k) = true
    · right
      rw [if_pos hqk] at hfq
      exact hfq.symm
    · left
      rw [if_neg hqk] at hfq
      exact hfq ▸ hq
  · rcases List.mem_append.mp hp with h | h
    · exact Or.inl h
    · exact Or.inr (List.mem_singleton.mp h)

theorem keys_recordSet_present {m : List (String × α)} {k : String} {v : α}
    (h : m.any (fun p => p.1 == k) = true) :
    (recordSet m k v).map Prod.fst = m.map Prod.fst := by
  unfold recordSet
  rw [if_pos h, List.map_map]
  refine List.map_congr_left (fun q _ => ?_)
  by_cases hqk : (q.1 == k) = true
  · simp only [Function.comp_apply, if_pos hqk]
    exact (eq_of_beq hqk).symm
  · simp only [Function.comp_apply, if_neg hqk]

theorem keys_recordSet_absent {m : List (String × α)} {k : String} {v : α}
    (h : m.any (fun p => p.1 == k) = false) :
    (recordSet m k v).map Prod.fst = m.map Prod.fst ++ [k] := by
  unfold recordSet
  rw [if_neg (by simp [h]), List.map_append]
  rfl

theorem goodMap_recordSet {key : α → String} {m : List (String × α)} {x : α}
    (h : GoodMap key m) : GoodMap key (recordSet m (key x) x) := by
  obtain ⟨h1, h2⟩ := h
  constructor
  · intro p hp
    rcases mem_recordSet hp with hin | hkv
    · exact h1 p hin
    · rw [hkv]
  · by_cases hany : m.any (fun p => p.1 == key x) = true
    · rw [keys_recordSet_present hany]
      exact h2
    · rw [keys_recordSet_absent (Bool.eq_false_iff.mpr hany)]
      refine List.Nodup.append h2 (List.nodup_singleton _) ?_
      intro a ha hb
      rw [List.mem_singleton.mp hb] at ha
      rcases List.mem_map.mp ha with ⟨q, hq, hfq⟩
      exact hany (List.any_eq_true.mpr ⟨q, hq, beq_iff_eq.mpr hfq⟩)

theorem goodMap_foldRecord (key : α → String) :
    ∀ (xs : List α) (m : List (String × α)), GoodMap key m →
      GoodMap key (xs.foldl (fun m x => recordSet m (key x) x) m)
  | [], _, h => h
  | _ :: xs, _, h => goodMap_foldRecord key xs _ (goodMap_recordSet h)

theorem goodMap_mapFromList (key : α → String) (xs : List α) :
    GoodMap key (mapFromList key xs) :=
  goodMap_foldRecord key xs [] ⟨by simp, by simp⟩

theorem mem_foldRecord (key : α → String) :
    ∀ (xs : List α) (m : List (String × α)) (p : String × α),
      p ∈ xs.foldl (fun m x => recordSet m (key x) x) m → p ∈ m ∨ p.2 ∈ xs
  | [], _, _, hp => Or.inl hp
  | x :: xs, m, p, hp => by
    rcases mem_foldRecord key xs (recordSet m (key x) x) p hp with h | h
    · rcases mem_recordSet h with h' | h'
      · exact Or.inl h'
      · exact Or.inr (h' ▸ List.mem_cons_self x xs)
    · exact Or.inr (List.mem_cons_of_mem x h)

theorem mem_of_mem_mapValues_mapFromList {key : α → String} {xs : List α} {x : α}
    (h : x ∈ mapValues (mapFromList key xs)) : x ∈ xs := by
  rcases List.mem_map.mp h with ⟨p, hp, hpx⟩
  rcases mem_foldRecord key xs [] p hp with h' | h'
  · cases h'
  · exact hpx ▸ h'

theorem pairwise_keys_mapValues {key : α → String} {m : List (String × α)}
    (h : GoodMap key m) : (mapValues m).Pairwise (fun a b => key a ≠ key b) := by
  obtain ⟨h1, h2⟩ := h
  have hmap : m.map Prod.fst = m.map (fun p => key p.2) := List.map_congr_left h1
  rw [hmap] at h2
  have h3 : m.Pairwise (fun p q => key p.2 ≠ key q.2) :=
    (List.pairwise_map.mp h2)
  exact List.pairwise_map.mpr h3

/-! ## Claim C2: lead uniqueness after the merge -/

theorem leadKey_congr {a b : Lead} (hid : a.id = b.id)
    (hcid : a.campaignId = b.campaignId) : leadKey a = leadKey b := by
  unfold leadKey
  rw [hid, hcid]

/-- C2: after the reconciliation merge runs, no two leads in the resulting
lead collection share the pair `(id, campaignId)`. -/
theorem c2_lead_uniqueness (localC cloudC : List Campaign) (localL cloudL : List Lead) :
    ((initMerge localC cloudC localL cloudL).leads).Pairwise
      (fun a b => ¬(a.id = b.id ∧ a.campaignId = b.campaignId)) := by
  have h := pairwise_keys_mapValues (goodMap_mapFromList leadKey
    (if (collapse (unionCampaigns localC cloudC)).toRemove.length > 0 then
      (unionLeads localL cloudL).map (remapLead (collapse (unionCampaigns localC cloudC)).remap)
    else unionLeads localL cloudL))
  exact h.imp (fun hk hab => hk (leadKey_congr hab.1 hab.2))

/-! ## Claim C9: `_`-joined lead keys collide across distinct pairs -/

/-- A lead whose own `id` contains the `_` separator. -/
def c9_collider1 : Lead :=
  { id := "a_b", name := "N1", phone := "11999990001", whatsappUrl := "",
    status := Status.new, neighborhood := "centro", type := LType.mobile,
    campaignId := some "c" }

/-- A distinct lead whose `(id, campaignId)` pair renders to the same
concatenated key. -/
def c9_collider2 : Lead :=
  { id := "a", name := "N2", phone := "11999990002", whatsappUrl := "",
    status := Status.new, neighborhood := "centro", type := LType.mobile,
    campaignId := some "b_c" }

/-- C9 (implicit): the merge deduplicates leads by the concatenated string
`id ++ "_" ++ campaignId` rather than by the pair; derived lead ids
themselves contain `_` separators; two leads with distinct
`(id, campaignId)` pairs can share the concatenated key, and the merge
then keeps only the later one in iteration order, dropping the other. -/
theorem c9_leadkey_collision :
    createNormalizedId "Padaria do Zé" "5511999998888" "Centro"
        = "padariadoz_centro_99998888" ∧
    containsSubstr (createNormalizedId "Padaria do Zé" "5511999998888" "Centro") "_"
        = true ∧
    ¬(c9_collider1.id = c9_collider2.id ∧
        c9_collider1.campaignId = c9_collider2.campaignId) ∧
    leadKey c9_collider1 = leadKey c9_collider2 ∧
    (initMerge [] [] [c9_collider1, c9_collider2] []).leads = [c9_collider2] := by
  decide

/-! ## Claim C4: the mining fold is idempotent on a batch -/

theorem foldBatch_cons_skip_state {s : List Lead} {cid : String} {b : Lead}
    (now : String) (bs : List Lead) (hex : leadExists s cid b = true) :
    (foldBatch s cid now (b :: bs)).1 = (foldBatch s cid now bs).1 := by
  simp only [foldBatch]
  rw [if_pos hex]

theorem foldBatch_cons_accept_state {s : List Lead} {cid : String} {b : Lead}
    (now : String) (bs : List Lead) (hex : ¬leadExists s cid b = true) :
    (foldBatch s cid now (b :: bs)).1
      = (foldBatch (s ++ [{ b with campaignId := some cid, lastSeenAt := some now }])
          cid now bs).1 := by
  simp only [foldBatch]
  rw [if_neg hex]
  split <;> rfl

theorem foldBatch_state_append (cid now : String) :
    ∀ (bs : List Lead) (s : List Lead), ∃ t, (foldBatch s cid now bs).1 = s ++ t
  | [], s => ⟨[], by simp [foldBatch]⟩
  | b :: bs, s => by
    by_cases hex : leadExists s cid b = true
    · obtain ⟨t, ht⟩ := foldBatch_state_append cid now bs s
      exact ⟨t, by rw [foldBatch_cons_skip_state now bs hex, ht]⟩
    · obtain ⟨t, ht⟩ := foldBatch_state_append cid now bs
        (s ++ [{ b with campaignId := some cid, lastSeenAt := some now }])
      refine ⟨[{ b with campaignId := some cid, lastSeenAt := some now }] ++ t, ?_⟩
      rw [foldBatch_cons_accept_state now bs hex, ht, List.append_assoc]

theorem leadExists_append_left {s t : List Lead} {cid : String} {b : Lead}
    (h : leadExists s cid b = true) : leadExists (s ++ t) cid b = true := by
  unfold leadExists at h ⊢
  rw [List.any_append, h, Bool.true_or]

theorem leadExists_accepted (s : List Lead) (cid now : String) (b : Lead) :
    leadExists (s ++ [{ b with campaignId := some cid, lastSeenAt := some now }]) cid b
      = true := by
  unfold leadExists
  rw [List.any_append, Bool.or_eq_true]
  right
  simp

theorem foldBatch_all_exist (cid now : String) :
    ∀ (bs : List Lead) (s : List Lead) (b : Lead), b ∈ bs →
      leadExists ((foldBatch s cid now bs).1) cid b = true
  | b0 :: bs, s, b, hb => by
    rcases List.mem_cons.mp hb with rfl | hb'
    · by_cases hex : leadExists s cid b = true
      · obtain ⟨t, ht⟩ := foldBatch_state_append cid now (b :: bs) s
        rw [ht]
        exact leadExists_append_left hex
      · obtain ⟨t, ht⟩ := foldBatch_state_append cid now bs
          (s ++ [{ b with campaignId := some cid, lastSeenAt := some now }])
        rw [foldBatch_cons_accept_state now bs hex, ht]
        exact leadExists_append_left (leadExists_accepted s cid now b)
    · by_cases hex : leadExists s cid b0 = true
      · rw [foldBatch_cons_skip_state now bs hex]
        exact foldBatch_all_exist cid now bs s b hb'
      · rw [foldBatch_cons_accept_state now bs hex]
        exact foldBatch_all_exist cid now bs _ b hb'

theorem foldBatch_noop_of_all_exist (cid now : String) :
    ∀ (bs : List Lead) (s : List Lead),
      (∀ b ∈ bs, leadExists s cid b = true) →
      foldBatch s cid now bs = (s, ⟨0, bs.length, 0, 0⟩)
  | [], s, _ => rfl
  | b :: bs, s, h => by
    have hex : leadExists s cid b = true := h b (List.mem_cons_self b bs)
    have ih := foldBatch_noop_of_all_exist cid now bs s
      (fun b' hb' => h b' (List.mem_cons_of_mem b hb'))
    simp [foldBatch, hex, ih]

/-- C4: folding a batch into the accumulated lead set and then folding the
identical batch again with the same target campaign accepts zero new leads
the second time and flags every candidate as skipped (the state is
unchanged and all counters except `skipped` are zero). -/
theorem c4_mining_fold_idempotent (s : List Lead) (cid now now2 : String)
    (batch : List Lead) :
    foldBatch ((foldBatch s cid now batch).1) cid now2 batch
      = ((foldBatch s cid now batch).1, ⟨0, batch.length, 0, 0⟩) :=
  foldBatch_noop_of_all_exist cid now2 batch _
    (fun b hb => foldBatch_all_exist cid now batch s b hb)

/-! ## Facts about `assocLookup` and the collapse loop -/

theorem assocLookup_none_iff {m : List (String × α)} {k : String} :
    assocLookup m k = none ↔ ∀ p ∈ m, ¬(p.1 = k) := by
  unfold assocLookup
  constructor
  · intro h p hp hpk
    cases hf : m.find? (fun p => p.1 == k) with
    | none =>
      have := List.find?_eq_none.mp hf p hp
      exact this (beq_iff_eq.mpr hpk)
    | some q => rw [hf] at h; cases h
  · intro h
    have hf : m.find? (fun p => p.1 == k) = none :=
      List.find?_eq_none.mpr (fun p hp hbeq => h p hp (eq_of_beq hbeq))
    rw [hf]
    rfl

theorem assocLookup_some_mem {m : List (String × α)} {k : String} {v : α}
    (h : assocLookup m k = some v) : ∃ p ∈ m, p.1 = k ∧ p.2 = v := by
  unfold assocLookup at h
  cases hf : m.find? (fun p => p.1 == k) with
  | none => rw [hf] at h; cases h
  | some q =>
    rw [hf] at h
    have hq := List.find?_some hf
    exact ⟨q, List.mem_of_find?_eq_some hf, eq_of_beq hq, Option.some.inj h⟩

theorem assocLookup_append_single_none {m : List (String × α)} {q : String × α}
    {k : String} (h : assocLookup (m ++ [q]) k = none) :
    assocLookup m k = none ∧ ¬(q.1 = k) := by
  have h' := assocLookup_none_iff.mp h
  exact ⟨assocLookup_none_iff.mpr (fun p hp => h' p (List.mem_append_left _ hp)),
    h' q (List.mem_append_right _ (List.mem_singleton_self q))⟩

theorem collapse_fold_mem :
    ∀ (cs : List Campaign) (acc : CollapseAcc) (p : String × Campaign),
      p ∈ (List.foldl collapseStep acc cs).nicheMap →
      p ∈ acc.nicheMap ∨
        (assocLookup acc.nicheMap p.1 = none ∧
          cs.find? (fun c => normalize c.niche == p.1) = some p.2)
  | [], _, _, hp => Or.inl hp
  | c :: cs, acc, p, hp => by
    rw [List.foldl_cons] at hp
    cases hlk : assocLookup acc.nicheMap (normalize c.niche) with
    | some original =>
      have hstep : (collapseStep acc c).nicheMap = acc.nicheMap := by
        simp [collapseStep, hlk]
      rcases collapse_fold_mem cs (collapseStep acc c) p hp with hin | ⟨hnone, hfind⟩
      · rw [hstep] at hin
        exact Or.inl hin
      · rw [hstep] at hnone
        refine Or.inr ⟨hnone, ?_⟩
        rw [List.find?_cons_of_neg]
        · exact hfind
        · intro hbeq
          rw [eq_of_beq hbeq] at hlk
          rw [hlk] at hnone
          cases hnone
    | none =>
      have hstep : (collapseStep acc c).nicheMap
          = acc.nicheMap ++ [(normalize c.niche, c)] := by
        simp [collapseStep, hlk]
      rcases collapse_fold_mem cs (collapseStep acc c) p hp with hin | ⟨hnone, hfind⟩
      · rw [hstep] at hin
        rcases List.mem_append.mp hin with h1 | h2
        · exact Or.inl h1
        · have hpv := List.mem_singleton.mp h2
          rw [hpv]
          refine Or.inr ⟨hlk, ?_⟩
          rw [List.find?_cons_of_pos]
          exact beq_self_eq_true _
      · rw [hstep] at hnone
        obtain ⟨hn1, hn2⟩ := assocLookup_append_single_none hnone
        refine Or.inr ⟨hn1, ?_⟩
        rw [List.find?_cons_of_neg]
        · exact hfind
        · intro hbeq
          exact hn2 (eq_of_beq hbeq)

theorem collapse_fold_goodMap :
    ∀ (cs : List Campaign) (acc : CollapseAcc),
      GoodMap (fun c => normalize c.niche) acc.nicheMap →
      GoodMap (fun c => normalize c.niche) (List.foldl collapseStep acc cs).nicheMap
  | [], _, h => h
  | c :: cs, acc, h => by
    rw [List.foldl_cons]
    apply collapse_fold_goodMap cs
    cases hlk : assocLookup acc.nicheMap (normalize c.niche) with
    | some original =>
      have hstep : (collapseStep acc c).nicheMap = acc.nicheMap := by
        simp [collapseStep, hlk]
      rw [hstep]
      exact h
    | none =>
      have hstep : (collapseStep acc c).nicheMap
          = acc.nicheMap ++ [(normalize c.niche, c)] := by
        simp [collapseStep, hlk]
      rw [hstep]
      constructor
      · intro p hp
        rcases List.mem_append.mp hp with h1 | h2
        · exact h.1 p h1
        · rw [List.mem_singleton.mp h2]
      · rw [List.map_append]
        refine List.Nodup.append h.2 (List.nodup_singleton _) ?_
        intro a ha hb
        rw [List.mem_singleton.mp hb] at ha
        rcases List.mem_map.mp ha with ⟨q, hq, hfq⟩
        exact assocLookup_none_iff.mp hlk q hq hfq

theorem collapse_fold_toRemove_mono :
    ∀ (cs : List Campaign) (acc : CollapseAcc),
      ∃ t, (List.foldl collapseStep acc cs).toRemove = acc.toRemove ++ t
  | [], acc => ⟨[], by simp⟩
  | c :: cs, acc => by
    obtain ⟨t, ht⟩ := collapse_fold_toRemove_mono cs (collapseStep acc c)
    rw [List.foldl_cons]
    cases hlk : assocLookup acc.nicheMap (normalize c.niche) with
    | some original =>
      refine ⟨[c.id] ++ t, ?_⟩
      rw [ht]
      have : (collapseStep acc c).toRemove = acc.toRemove ++ [c.id] := by
        simp [collapseStep, hlk]
      rw [this, List.append_assoc]
    | none =>
      refine ⟨t, ?_⟩
      rw [ht]
      have : (collapseStep acc c).toRemove = acc.toRemove := by
        simp [collapseStep, hlk]
      rw [this]

theorem collapse_fold_nicheMap_of_no_remove :
    ∀ (cs : List Campaign) (acc : CollapseAcc),
      (List.foldl collapseStep acc cs).toRemove = acc.toRemove →
      (List.foldl collapseStep acc cs).nicheMap
        = acc.nicheMap ++ cs.map (fun c => (normalize c.niche, c))
  | [], acc, _ => by simp
  | c :: cs, acc, h => by
    rw [List.foldl_cons] at h ⊢
    cases hlk : assocLookup acc.nicheMap (normalize c.niche) with
    | some original =>
      exfalso
      obtain ⟨t, ht⟩ := collapse_fold_toRemove_mono cs (collapseStep acc c)
      have hstep : (collapseStep acc c).toRemove = acc.toRemove ++ [c.id] := by
        simp [collapseStep, hlk]
      rw [ht, hstep, List.append_assoc] at h
      have hlen := congrArg List.length h
      simp [List.length_append] at hlen
    | none =>
      have hmap : (collapseStep acc c).nicheMap
          = acc.nicheMap ++ [(normalize c.niche, c)] := by
        simp [collapseStep, hlk]
      have hrem : (collapseStep acc c).toRemove = acc.toRemove := by
        simp [collapseStep, hlk]
      rw [hrem.symm] at h
      have ih := collapse_fold_nicheMap_of_no_remove cs (collapseStep acc c) h
      rw [ih, hmap, List.map_cons, List.append_assoc]
      rfl

/-! ## Claim C1: duplicate-campaign collapse is a quotient, first wins -/

theorem initMerge_campaigns_eq (localC cloudC : List Campaign)
    (localL cloudL : List Lead) :
    (initMerge localC cloudC localL cloudL).campaigns
      = mapValues (collapse (unionCampaigns localC cloudC)).nicheMap := by
  show (if (collapse (unionCampaigns localC cloudC)).toRemove.length > 0 then
      mapValues (collapse (unionCampaigns localC cloudC)).nicheMap
    else unionCampaigns localC cloudC)
      = mapValues (collapse (unionCampaigns localC cloudC)).nicheMap
  split
  · rfl
  · rename_i hlen
    have hrem : (collapse (unionCampaigns localC cloudC)).toRemove = [] := by
      cases h : (collapse (unionCampaigns localC cloudC)).toRemove with
      | nil => rfl
      | cons a t => rw [h] at hlen; simp at hlen
    have h3 := collapse_fold_nicheMap_of_no_remove (unionCampaigns localC cloudC)
      ⟨[], [], []⟩ hrem
    unfold collapse
    rw [h3]
    simp only [mapValues, List.nil_append, List.map_map]
    exact (List.map_id _).symm

/-- C1: after the reconciliation merge, each surviving campaign is the
first campaign of its normalized-niche group in the unioned input's
iteration order, and consequently no two surviving campaigns share a
normalized niche (the collapse is a quotient). -/
theorem c1_campaign_collapse_quotient (localC cloudC : List Campaign)
    (localL cloudL : List Lead) :
    (∀ A ∈ (initMerge localC cloudC localL cloudL).campaigns,
        (unionCampaigns localC cloudC).find?
          (fun c => normalize c.niche == normalize A.niche) = some A) ∧
    (∀ A ∈ (initMerge localC cloudC localL cloudL).campaigns,
      ∀ B ∈ (initMerge localC cloudC localL cloudL).campaigns,
        normalize A.niche = normalize B.niche → A = B) := by
  have hfirst : ∀ A ∈ (initMerge localC cloudC localL cloudL).campaigns,
      (unionCampaigns localC cloudC).find?
        (fun c => normalize c.niche == normalize A.niche) = some A := by
    intro A hA
    rw [initMerge_campaigns_eq] at hA
    rcases List.mem_map.mp hA with ⟨p, hp, hpA⟩
    rcases collapse_fold_mem (unionCampaigns localC cloudC) ⟨[], [], []⟩ p hp with
      h | ⟨_, hfind⟩
    · cases h
    · have hkey : p.1 = normalize p.2.niche :=
        (collapse_fold_goodMap (unionCampaigns localC cloudC) ⟨[], [], []⟩
          ⟨by simp, by simp⟩).1 p hp
      rw [hkey, hpA] at hfind
      exact hfind
  refine ⟨hfirst, fun A hA B hB hn => ?_⟩
  have h1 := hfirst A hA
  have h2 := hfirst B hB
  rw [← hn] at h2
  exact Option.some.inj (h1.symm.trans h2)

/-- First campaign of the duplicated niche, used to witness C1. -/
def c1_campA : Campaign := ⟨"1", "pizzaria", "sp", "t1", "t1"⟩

/-- Later campaign with the same normalized niche, used to witness C1. -/
def c1_campB : Campaign := ⟨"2", "PIZZARIA!!", "sp", "t2", "t2"⟩

theorem c1_witness :
    c1_campA ∈ (initMerge [c1_campA, c1_campB] [] [] []).campaigns ∧
    (unionCampaigns [c1_campA, c1_campB] []).find?
      (fun c => normalize c.niche == normalize c1_campA.niche) = some c1_campA :=
  ⟨by decide,
    (c1_campaign_collapse_quotient [c1_campA, c1_campB] [] [] []).1 c1_campA (by decide)⟩

/-! ## Claim C3: remap completeness -/

theorem initMerge_leads_eq (localC cloudC : List Campaign) (localL cloudL : List Lead) :
    (initMerge localC cloudC localL cloudL).leads
      = mapValues (mapFromList leadKey
          (if (collapse (unionCampaigns localC cloudC)).toRemove.length > 0 then
            (unionLeads localL cloudL).map
              (remapLead (collapse (unionCampaigns localC cloudC)).remap)
          else unionLeads localL cloudL)) := rfl

/-- Ids of the canonical (kept) campaigns in the accumulator. -/
def keptIds (acc : CollapseAcc) : List String :=
  (mapValues acc.nicheMap).map Campaign.id

/-- Loop invariant of the duplicate-campaign collapse, relative to the
campaigns still to be processed: remap keys are exactly the removed ids,
remap values are kept ids, removed and kept ids are disjoint, and the
upcoming ids are fresh and pairwise distinct. -/
def CollapseInv (acc : CollapseAcc) (rest : List Campaign) : Prop :=
  acc.remap.map Prod.fst = acc.toRemove ∧
  (∀ q ∈ acc.remap, q.2 ∈ keptIds acc) ∧
  (∀ x ∈ acc.toRemove, x ∉ keptIds acc) ∧
  (∀ x ∈ rest.map Campaign.id, x ∉ acc.toRemove ∧ x ∉ keptIds acc) ∧
  (rest.map Campaign.id).Nodup

theorem collapseStep_inv {acc : CollapseAcc} {c : Campaign} {rest : List Campaign}
    (h : CollapseInv acc (c :: rest)) : CollapseInv (collapseStep acc c) rest := by
  obtain ⟨h1, h2, h3, h4, h5⟩ := h
  simp only [List.map_cons] at h4 h5
  have hcid := h4 c.id (List.mem_cons_self _ _)
  have h5' := List.nodup_cons.mp h5
  cases hlk : assocLookup acc.nicheMap (normalize c.niche) with
  | some original =>
    have hnm : (collapseStep acc c).nicheMap = acc.nicheMap := by
      simp [collapseStep, hlk]
    have htr : (collapseStep acc c).toRemove = acc.toRemove ++ [c.id] := by
      simp [collapseStep, hlk]
    have hrm : (collapseStep acc c).remap = recordSet acc.remap c.id original.id := by
      simp [collapseStep, hlk]
    have hkept : keptIds (collapseStep acc c) = keptIds acc := by
      rw [keptIds, hnm]
      rfl
    have hnotkey : acc.remap.any (fun p => p.1 == c.id) = false := by
      apply Bool.eq_false_iff.mpr
      intro hany
      rcases List.any_eq_true.mp hany with ⟨p, hp, hbeq⟩
      apply hcid.1
      rw [← h1]
      exact List.mem_map.mpr ⟨p, hp, eq_of_beq hbeq⟩
    refine ⟨?_, ?_, ?_, ?_, h5'.2⟩
    · rw [hrm, htr, keys_recordSet_absent hnotkey, h1]
    · intro q hq
      rw [hkept]
      rw [hrm] at hq
      rcases mem_recordSet hq with h' | h'
      · exact h2 q h'
      · rw [h']
        rcases assocLookup_some_mem hlk with ⟨p, hp, _, hp2⟩
        exact List.mem_map.mpr ⟨p.2, List.mem_map.mpr ⟨p, hp, rfl⟩, by rw [hp2]⟩
    · intro x hx
      rw [hkept]
      rw [htr] at hx
      rcases List.mem_append.mp hx with h' | h'
      · exact h3 x h'
      · rw [List.mem_singleton.mp h']
        exact hcid.2
    · intro x hx
      have hx' := h4 x (List.mem_cons_of_mem _ hx)
      rw [htr, hkept]
      constructor
      · intro hmem
        rcases List.mem_append.mp hmem with h' | h'
        · exact hx'.1 h'
        · rw [List.mem_singleton.mp h'] at hx
          exact h5'.1 hx
      · exact hx'.2
  | none =>
    have hnm : (collapseStep acc c).nicheMap
        = acc.nicheMap ++ [(normalize c.niche, c)] := by
      simp [collapseStep, hlk]
    have htr : (collapseStep acc c).toRemove = acc.toRemove := by
      simp [collapseStep, hlk]
    have hrm : (collapseStep acc c).remap = acc.remap := by
      simp [collapseStep, hlk]
    have hkept : keptIds (collapseStep acc c) = keptIds acc ++ [c.id] := by
      rw [keptIds, hnm, mapValues, List.map_append, List.map_append]
      rfl
    refine ⟨?_, ?_, ?_, ?_, h5'.2⟩
    · rw [hrm, htr]
      exact h1
    · intro q hq
      rw [hkept]
      rw [hrm] at hq
      exact List.mem_append_left _ (h2 q hq)
    · intro x hx
      rw [hkept]
      rw [htr] at hx
      intro hmem
      rcases List.mem_append.mp hmem with h' | h'
      · exact h3 x hx h'
      · rw [List.mem_singleton.mp h'] at hx
        exact hcid.1 hx
    · intro x hx
      have hx' := h4 x (List.mem_cons_of_mem _ hx)
      rw [htr, hkept]
      refine ⟨hx'.1, ?_⟩
      intro hmem
      rcases List.mem_append.mp hmem with h' | h'
      · exact hx'.2 h'
      · rw [List.mem_singleton.mp h'] at hx
        exact h5'.1 hx

theorem collapse_fold_inv :
    ∀ (cs : List Campaign) (acc : CollapseAcc), CollapseInv acc cs →
      CollapseInv (List.foldl collapseStep acc cs) []
  | [], _, h => h
  | c :: cs, acc, h => by
    rw [List.foldl_cons]
    exact collapse_fold_inv cs _ (collapseStep_inv h)

theorem union_campaign_ids_nodup (localC cloudC : List Campaign) :
    ((unionCampaigns localC cloudC).map Campaign.id).Nodup :=
  List.pairwise_map.mpr
    (pairwise_keys_mapValues (goodMap_mapFromList (fun c => c.id) (localC ++ cloudC)))

theorem collapse_inv (localC cloudC : List Campaign) :
    CollapseInv (collapse (unionCampaigns localC cloudC)) [] := by
  apply collapse_fold_inv
  refine ⟨rfl, ?_, ?_, ?_, union_campaign_ids_nodup localC cloudC⟩
  · intro q hq
    cases hq
  · intro x hx
    cases hx
  · intro x _
    constructor
    · intro h
      cases h
    · intro h
      cases h

theorem keptIds_sub_inputs {localC cloudC : List Campaign} {y : String}
    (hy : y ∈ keptIds (collapse (unionCampaigns localC cloudC))) :
    ∃ c ∈ localC ++ cloudC, c.id = y := by
  rcases List.mem_map.mp hy with ⟨camp, hcamp, hcy⟩
  rcases List.mem_map.mp hcamp with ⟨p, hp, hpc⟩
  rcases collapse_fold_mem (unionCampaigns localC cloudC) ⟨[], [], []⟩ p hp with
    h | ⟨_, hfind⟩
  · cases h
  · have hmem : p.2 ∈ unionCampaigns localC cloudC := List.mem_of_find?_eq_some hfind
    exact ⟨p.2, mem_of_mem_mapValues_mapFromList hmem, by rw [hpc, hcy]⟩

/-- Campaign whose id is the empty string, canonical for its niche: the
JS `||` fallback then skips the remap of its duplicates' leads. -/
def c3_campEmpty : Campaign := ⟨"", "pizza", "sp", "t1", "t1"⟩

/-- A later campaign with the same normalized niche, marked for removal. -/
def c3_campX : Campaign := ⟨"x", "PIZZA!", "sp", "t2", "t2"⟩

/-- A lead attached to the removed campaign `"x"`. -/
def c3_leadX : Lead :=
  { id := "a", name := "N", phone := "11999990001", whatsappUrl := "",
    status := Status.new, neighborhood := "b", type := LType.mobile,
    campaignId := some "x" }

/-- C3 counterexample: with a canonical campaign whose id is the empty
string, the JS `||` fallback
(`leadRemapping[l.campaignId] || l.campaignId`) keeps the removed
campaign id on the lead, so a surviving lead still refers to a removed
campaign id even though that id was in the remap table. -/
theorem c3_remap_counterexample :
    (initMerge [c3_campEmpty, c3_campX] [] [c3_leadX] []).removed = ["x"] ∧
    assocLookup (initMerge [c3_campEmpty, c3_campX] [] [c3_leadX] []).remap "x"
        = some "" ∧
    (initMerge [c3_campEmpty, c3_campX] [] [c3_leadX] []).leads = [c3_leadX] ∧
    c3_leadX.campaignId = some "x" ∧
    ¬(∀ l ∈ (initMerge [c3_campEmpty, c3_campX] [] [c3_leadX] []).leads,
        ∀ r ∈ (initMerge [c3_campEmpty, c3_campX] [] [c3_leadX] []).removed,
          l.campaignId ≠ some r) := by
  decide

/-- C3 amended: provided no input campaign has the empty string as id,
after the merge no surviving lead's `campaignId` refers to a removed
campaign id, and every lead whose rendered `campaignId` is in the remap
table is rewritten to the corresponding canonical id (the remap runs on
the unioned lead list before the final deduplication). -/
theorem c3_remap_amended (localC cloudC : List Campaign) (localL cloudL : List Lead)
    (hne : ∀ c ∈ localC ++ cloudC, c.id ≠ "") :
    (∀ l ∈ (initMerge localC cloudC localL cloudL).leads,
      ∀ r ∈ (initMerge localC cloudC localL cloudL).removed,
        l.campaignId ≠ some r) ∧
    (∀ (l : Lead) (v : String),
      assocLookup (initMerge localC cloudC localL cloudL).remap
          (cidString l.campaignId) = some v →
      (remapLead (initMerge localC cloudC localL cloudL).remap l).campaignId
        = some v) := by
  obtain ⟨hkeys, hvals, hdisj, _, _⟩ := collapse_inv localC cloudC
  have hkept_ne : ∀ y ∈ keptIds (collapse (unionCampaigns localC cloudC)), y ≠ "" := by
    intro y hy
    rcases keptIds_sub_inputs hy with ⟨c, hc, hcy⟩
    rw [← hcy]
    exact hne c hc
  have hremap : ∀ (l : Lead) (v : String),
      assocLookup (collapse (unionCampaigns localC cloudC)).remap
          (cidString l.campaignId) = some v →
      (remapLead (collapse (unionCampaigns localC cloudC)).remap l).campaignId
        = some v := by
    intro l v hv
    have hvne : v ≠ "" := by
      rcases assocLookup_some_mem hv with ⟨q, hq, _, hq2⟩
      have hqv := hvals q hq
      rw [hq2] at hqv
      exact hkept_ne v hqv
    simp only [remapLead, hv]
    rw [if_neg hvne]
  refine ⟨?_, hremap⟩
  intro l hl r hr
  have hr' : r ∈ (collapse (unionCampaigns localC cloudC)).toRemove := hr
  rw [initMerge_leads_eq] at hl
  have hl' := mem_of_mem_mapValues_mapFromList hl
  by_cases hb : (collapse (unionCampaigns localC cloudC)).toRemove.length > 0
  · rw [if_pos hb] at hl'
    rcases List.mem_map.mp hl' with ⟨l0, _, hl0⟩
    subst hl0
    cases hlk : assocLookup (collapse (unionCampaigns localC cloudC)).remap
        (cidString l0.campaignId) with
    | some v =>
      rw [hremap l0 v hlk]
      intro hcontra
      have hvr := Option.some.inj hcontra
      rcases assocLookup_some_mem hlk with ⟨q, hq, _, hq2⟩
      apply hdisj r hr'
      rw [← hvr, ← hq2]
      exact hvals q hq
    | none =>
      have hid : remapLead (collapse (unionCampaigns localC cloudC)).remap l0 = l0 := by
        simp [remapLead, hlk]
      rw [hid]
      intro hcontra
      rw [← hkeys] at hr'
      rcases List.mem_map.mp hr' with ⟨q, hq, hq1⟩
      apply assocLookup_none_iff.mp hlk q hq
      rw [hcontra]
      exact hq1
  · exfalso
    have hempty : (collapse (unionCampaigns localC cloudC)).toRemove = [] := by
      cases h : (collapse (unionCampaigns localC cloudC)).toRemove with
      | nil => rfl
      | cons a t => rw [h] at hb; simp at hb
    rw [hempty] at hr'
    cases hr'

/-- First campaign of the duplicated niche, with a non-empty id. -/
def c3_camp1 : Campaign := ⟨"1", "pizza", "sp", "t1", "t1"⟩

/-- Later campaign with the same normalized niche and non-empty id. -/
def c3_camp2 : Campaign := ⟨"2", "PIZZA!", "sp", "t2", "t2"⟩

/-- A lead attached to the removed campaign `"2"`. -/
def c3_lead2 : Lead :=
  { id := "a", name := "N", phone := "11999990001", whatsappUrl := "",
    status := Status.new, neighborhood := "b", type := LType.mobile,
    campaignId := some "2" }

theorem c3_witness :
    (∀ c ∈ [c3_camp1, c3_camp2] ++ ([] : List Campaign), c.id ≠ "") ∧
    ((∀ l ∈ (initMerge [c3_camp1, c3_camp2] [] [c3_lead2] []).leads,
        ∀ r ∈ (initMerge [c3_camp1, c3_camp2] [] [c3_lead2] []).removed,
          l.campaignId ≠ some r) ∧
      (∀ (l : Lead) (v : String),
        assocLookup (initMerge [c3_camp1, c3_camp2] [] [c3_lead2] []).remap
            (cidString l.campaignId) = some v →
        (remapLead (initMerge [c3_camp1, c3_camp2] [] [c3_lead2] []).remap l).campaignId
          = some v)) :=
  ⟨by decide, c3_remap_amended [c3_camp1, c3_camp2] [] [c3_lead2] [] (by decide)⟩

/-! ## Claim C5: phone-based duplicate detection -/

theorem scanDupes_cons_flagged {seen : List String} {l : Lead} (rest : List Lead)
    (h : (normalize l.phone != "" && seen.contains (normalize l.phone)) = true) :
    scanDupes seen (l :: rest)
      = ((scanDupes seen rest).1, l :: (scanDupes seen rest).2) := by
  simp only [scanDupes]
  rw [if_pos h]

theorem scanDupes_cons_kept {seen : List String} {l : Lead} (rest : List Lead)
    (h : (normalize l.phone != "" && seen.contains (normalize l.phone)) = false) :
    scanDupes seen (l :: rest)
      = (l :: (scanDupes
            (if normalize l.phone != "" then seen ++ [normalize l.phone] else seen)
            rest).1,
          (scanDupes
            (if normalize l.phone != "" then seen ++ [normalize l.phone] else seen)
            rest).2) := by
  simp only [scanDupes]
  rw [if_neg (ne_true_of_eq_false h)]

theorem scanDupes_dupes_phone_ne :
    ∀ (ls : List Lead) (seen : List String) (d : Lead),
      d ∈ (scanDupes seen ls).2 → normalize d.phone ≠ ""
  | [], _, _, hd => by cases hd
  | l :: rest, seen, d, hd => by
    by_cases hc : (normalize l.phone != "" && seen.contains (normalize l.phone)) = true
    · rw [scanDupes_cons_flagged rest hc] at hd
      rcases List.mem_cons.mp hd with rfl | hd'
      · exact bne_iff_ne.mp ((Bool.and_eq_true _ _ ▸ hc).1)
      · exact scanDupes_dupes_phone_ne rest seen d hd'
    · rw [scanDupes_cons_kept rest (Bool.eq_false_iff.mpr hc)] at hd
      exact scanDupes_dupes_phone_ne rest _ d hd

theorem scanDupes_dupes_recent (τ : String → Nat) :
    ∀ (ls : List Lead) (seen : List String) (K : List Lead),
      (∀ p ∈ seen, ∃ k ∈ K, normalize k.phone = p ∧
        ∀ x ∈ ls, dateVal τ x ≤ dateVal τ k) →
      ls.Pairwise (moreRecent τ) →
      ∀ d ∈ (scanDupes seen ls).2,
        ∃ k, (k ∈ K ∨ k ∈ (scanDupes seen ls).1) ∧
          normalize k.phone = normalize d.phone ∧ dateVal τ d ≤ dateVal τ k
  | [], _, _, _, _, _, hd => by cases hd
  | l :: rest, seen, K, hseen, hpair, d, hd => by
    have hp := List.pairwise_cons.mp hpair
    by_cases hc : (normalize l.phone != "" && seen.contains (normalize l.phone)) = true
    · rw [scanDupes_cons_flagged rest hc] at hd
      rw [scanDupes_cons_flagged rest hc]
      rcases List.mem_cons.mp hd with rfl | hd'
      · have hmem : normalize d.phone ∈ seen :=
          List.mem_of_elem_eq_true ((Bool.and_eq_true _ _ ▸ hc).2)
        obtain ⟨k, hk, hkp, hkall⟩ := hseen (normalize d.phone) hmem
        exact ⟨k, Or.inl hk, hkp, hkall d (List.mem_cons_self _ _)⟩
      · have hseen' : ∀ p ∈ seen, ∃ k ∈ K, normalize k.phone = p ∧
            ∀ x ∈ rest, dateVal τ x ≤ dateVal τ k := by
          intro p hp'
          obtain ⟨k, hk, hkp, hkall⟩ := hseen p hp'
          exact ⟨k, hk, hkp, fun x hx => hkall x (List.mem_cons_of_mem _ hx)⟩
        exact scanDupes_dupes_recent τ rest seen K hseen' hp.2 d hd'
    · have hc' := Bool.eq_false_iff.mpr hc
      rw [scanDupes_cons_kept rest hc'] at hd
      rw [scanDupes_cons_kept rest hc']
      have hseen2 : ∀ p ∈ (if normalize l.phone != "" then
            seen ++ [normalize l.phone] else seen),
          ∃ k ∈ l :: K, normalize k.phone = p ∧
            ∀ x ∈ rest, dateVal τ x ≤ dateVal τ k := by
        intro p hp'
        have hold : p ∈ seen → ∃ k ∈ l :: K, normalize k.phone = p ∧
            ∀ x ∈ rest, dateVal τ x ≤ dateVal τ k := by
          intro hps
          obtain ⟨k, hk, hkp, hkall⟩ := hseen p hps
          exact ⟨k, List.mem_cons_of_mem _ hk, hkp,
            fun x hx => hkall x (List.mem_cons_of_mem _ hx)⟩
        by_cases hb : (normalize l.phone != "") = true
        · rw [if_pos hb] at hp'
          rcases List.mem_append.mp hp' with hps | hpl
          · exact hold hps
          · refine ⟨l, List.mem_cons_self _ _, (List.mem_singleton.mp hpl).symm, ?_⟩
            intro x hx
            exact hp.1 x hx
        · rw [if_neg hb] at hp'
          exact hold hp'
      obtain ⟨k, hk, hkp, hkd⟩ :=
        scanDupes_dupes_recent τ rest _ (l :: K) hseen2 hp.2 d hd
      rcases hk with hkK | hkkept
      · rcases List.mem_cons.mp hkK with rfl | hkK'
        · exact ⟨k, Or.inr (List.mem_cons_self _ _), hkp, hkd⟩
        · exact ⟨k, Or.inl hkK', hkp, hkd⟩
      · exact ⟨k, Or.inr (List.mem_cons_of_mem _ hkkept), hkp, hkd⟩

/-- C5: phone-duplicate detection sorts by `lastSeenAt` descending
(missing treated as the epoch, the JS `Date` valuation abstracted as `τ`)
and scans keeping seen normalized phones: a flagged lead always has a
non-empty normalized phone (empty phones are never flagged), every flagged
lead has a surviving lead with the same phone seen at least as recently,
and on two leads sharing a phone with `lastSeenAt` `2024-01-02` and
`2024-01-01` the older one is the flagged duplicate. -/
theorem c5_phone_duplicates :
    (∀ (τ : String → Nat) (target : List Lead) (d : Lead),
      d ∈ (findPhoneDuplicates τ target).2 → normalize d.phone ≠ "") ∧
    (∀ (τ : String → Nat) (target : List Lead) (d : Lead),
      d ∈ (findPhoneDuplicates τ target).2 →
        ∃ k ∈ (findPhoneDuplicates τ target).1,
          normalize k.phone = normalize d.phone ∧ dateVal τ d ≤ dateVal τ k) ∧
    (∀ (τ : String → Nat) (a b : Lead),
      normalize a.phone ≠ "" → normalize a.phone = normalize b.phone →
      a.lastSeenAt = some "2024-01-02" → b.lastSeenAt = some "2024-01-01" →
      τ "2024-01-01" ≤ τ "2024-01-02" →
      findPhoneDuplicates τ [a, b] = ([a], [b])) := by
  refine ⟨?_, ?_, ?_⟩
  · intro τ target d hd
    exact scanDupes_dupes_phone_ne _ _ d hd
  · intro τ target d hd
    haveI : IsTotal Lead (moreRecent τ) :=
      ⟨fun a b => Nat.le_total (dateVal τ b) (dateVal τ a)⟩
    haveI : IsTrans Lead (moreRecent τ) :=
      ⟨fun _ _ _ hab hbc => Nat.le_trans hbc hab⟩
    have hsorted : (sortByDateDesc τ target).Pairwise (moreRecent τ) :=
      List.sorted_insertionSort (moreRecent τ) target
    obtain ⟨k, hk, hkp, hkd⟩ := scanDupes_dupes_recent τ (sortByDateDesc τ target)
      [] [] (fun p hp => by cases hp) hsorted d hd
    rcases hk with hkK | hkkept
    · cases hkK
    · exact ⟨k, hkkept, hkp, hkd⟩
  · intro τ a b hne hphone ha hb hle
    have hda : dateVal τ a = τ "2024-01-02" := by
      simp [dateVal, ha]
    have hdb : dateVal τ b = τ "2024-01-01" := by
      simp [dateVal, hb]
    have hr : moreRecent τ a b := by
      rw [moreRecent, hda, hdb]
      exact hle
    have hsort : sortByDateDesc τ [a, b] = [a, b] := by
      simp only [sortByDateDesc, List.insertionSort, List.orderedInsert]
      rw [if_pos hr]
    have hbne : (normalize a.phone != "") = true := bne_iff_ne.mpr hne
    have hcond1 : (normalize a.phone != ""
        && List.contains ([] : List String) (normalize a.phone)) = false := by
      rw [hbne]
      rfl
    have hcond2 : (normalize b.phone != ""
        && List.contains [normalize a.phone] (normalize b.phone)) = true := by
      rw [← hphone, hbne]
      simp
    unfold findPhoneDuplicates
    rw [hsort, scanDupes_cons_kept [b] hcond1, if_pos hbne, List.nil_append,
      scanDupes_cons_flagged [] hcond2]
    rfl

/-- Concrete valuation standing in for the JS `Date` parse of the two
scenario timestamps, used to witness C5. -/
def c5_tau : String → Nat := fun s => if s = "2024-01-02" then 1704153600000 else 1704067200000

/-- The more recently seen lead of the C5 scenario. -/
def c5_leadRecent : Lead :=
  { id := "l1", name := "A", phone := "11999998888", whatsappUrl := "",
    status := Status.new, neighborhood := "x", type := LType.mobile,
    lastSeenAt := some "2024-01-02" }

/-- The older lead of the C5 scenario, the one that gets flagged. -/
def c5_leadOld : Lead :=
  { id := "l2", name := "B", phone := "11999998888", whatsappUrl := "",
    status := Status.new, neighborhood := "x", type := LType.mobile,
    lastSeenAt := some "2024-01-01" }

theorem c5_witness :
    (c5_leadOld ∈ (findPhoneDuplicates c5_tau [c5_leadRecent, c5_leadOld]).2 ∧
      normalize c5_leadOld.phone ≠ "") ∧
    findPhoneDuplicates c5_tau [c5_leadRecent, c5_leadOld]
      = ([c5_leadRecent], [c5_leadOld]) :=
  ⟨⟨by decide,
      c5_phone_duplicates.1 c5_tau [c5_leadRecent, c5_leadOld] c5_leadOld (by decide)⟩,
    c5_phone_duplicates.2.2 c5_tau c5_leadRecent c5_leadOld (by decide) (by decide)
      (by decide) (by decide) (by decide)⟩

/-! ## Claim C6: error classification in the mining loop -/

theorem mineLoop_cons_ok (cid now n : String) (bz : List Lead)
    (rest : List (String × MineOutcome)) (st : MineState) :
    mineLoop cid now ((n, MineOutcome.ok bz) :: rest) st
      = mineLoop cid now rest
          { st with
              leads := (foldBatch st.leads cid now bz).1,
              counts := addCounts st.counts (foldBatch st.leads cid now bz).2,
              processed := st.processed ++ [n] } := rfl

theorem mineLoop_cons_err_429 {m : String} (cid now n : String)
    (rest : List (String × MineOutcome)) (st : MineState)
    (h : containsSubstr m "429" = true) :
    mineLoop cid now ((n, MineOutcome.err m) :: rest) st
      = { st with errorMessage := some quotaMsg } := by
  simp only [mineLoop]
  rw [if_pos h]

theorem mineLoop_cons_err_key {m : String} (cid now n : String)
    (rest : List (String × MineOutcome)) (st : MineState)
    (h1 : containsSubstr m "429" = false)
    (h2 : containsSubstr m "API_KEY_MISSING" = true) :
    mineLoop cid now ((n, MineOutcome.err m) :: rest) st
      = { st with errorMessage := some configMsg } := by
  simp only [mineLoop]
  rw [if_neg (ne_true_of_eq_false h1), if_pos h2]

theorem mineLoop_cons_err_other {m : String} (cid now n : String)
    (rest : List (String × MineOutcome)) (st : MineState)
    (h1 : containsSubstr m "429" = false)
    (h2 : containsSubstr m "API_KEY_MISSING" = false) :
    mineLoop cid now ((n, MineOutcome.err m) :: rest) st
      = mineLoop cid now rest { st with errorMessage := some genericMsg } := by
  simp only [mineLoop]
  rw [if_neg (ne_true_of_eq_false h1), if_neg (ne_true_of_eq_false h2)]

theorem mineLoop_append_clean (cid now : String) :
    ∀ (a : List (String × MineOutcome)) (st : MineState),
      (∀ p ∈ a, isHalting p.2 = false) →
      ∀ (b : List (String × MineOutcome)),
        mineLoop cid now (a ++ b) st = mineLoop cid now b (mineLoop cid now a st)
  | [], _, _, _ => rfl
  | (n, MineOutcome.ok bz) :: a, st, hclean, b => by
    rw [List.cons_append, mineLoop_cons_ok, mineLoop_cons_ok]
    exact mineLoop_append_clean cid now a _
      (fun p hp => hclean p (List.mem_cons_of_mem _ hp)) b
  | (n, MineOutcome.err m) :: a, st, hclean, b => by
    have hh := hclean (n, MineOutcome.err m) (List.mem_cons_self _ _)
    have hm := Bool.or_eq_false_iff.mp hh
    rw [List.cons_append, mineLoop_cons_err_other cid now n _ st hm.1 hm.2,
      mineLoop_cons_err_other cid now n _ st hm.1 hm.2]
    exact mineLoop_append_clean cid now a _
      (fun p hp => hclean p (List.mem_cons_of_mem _ hp)) b

theorem mineLoop_processed_clean (cid now : String) :
    ∀ (steps : List (String × MineOutcome)) (st : MineState),
      (∀ p ∈ steps, isHalting p.2 = false) →
      (mineLoop cid now steps st).processed
        = st.processed ++ steps.filterMap (fun p =>
            match p.2 with
            | MineOutcome.ok _ => some p.1
            | MineOutcome.err _ => none)
  | [], _, _ => by simp [mineLoop]
  | (n, MineOutcome.ok bz) :: steps, st, hclean => by
    rw [mineLoop_cons_ok]
    rw [mineLoop_processed_clean cid now steps _
      (fun p hp => hclean p (List.mem_cons_of_mem _ hp))]
    simp [List.append_assoc]
  | (n, MineOutcome.err m) :: steps, st, hclean => by
    have hh := hclean (n, MineOutcome.err m) (List.mem_cons_self _ _)
    have hm := Bool.or_eq_false_iff.mp hh
    rw [mineLoop_cons_err_other cid now n _ st hm.1 hm.2]
    rw [mineLoop_processed_clean cid now steps _
      (fun p hp => hclean p (List.mem_cons_of_mem _ hp))]
    rfl

/-- C6: in the sequential mining loop, an error whose message carries the
`429` quota signal halts the remaining loop (the result is that of running
only the prefix, whatever neighborhoods remain) and surfaces the
come-back-later message; a missing-credential signal (no `429`) halts with
the configuration message; and when no error is a halting one, the loop
reaches every neighborhood, processing exactly the successful ones. -/
theorem c6_error_classification :
    (∀ (cid now : String) (a : List (String × MineOutcome)) (n m : String)
        (b : List (String × MineOutcome)) (st : MineState),
      (∀ p ∈ a, isHalting p.2 = false) →
      containsSubstr m "429" = true →
      mineLoop cid now (a ++ (n, MineOutcome.err m) :: b) st
        = { mineLoop cid now a st with errorMessage := some quotaMsg }) ∧
    (∀ (cid now : String) (a : List (String × MineOutcome)) (n m : String)
        (b : List (String × MineOutcome)) (st : MineState),
      (∀ p ∈ a, isHalting p.2 = false) →
      containsSubstr m "429" = false →
      containsSubstr m "API_KEY_MISSING" = true →
      mineLoop cid now (a ++ (n, MineOutcome.err m) :: b) st
        = { mineLoop cid now a st with errorMessage := some configMsg }) ∧
    (∀ (cid now : String) (steps : List (String × MineOutcome)) (st : MineState),
      (∀ p ∈ steps, isHalting p.2 = false) →
      (mineLoop cid now steps st).processed
        = st.processed ++ steps.filterMap (fun p =>
            match p.2 with
            | MineOutcome.ok _ => some p.1
            | MineOutcome.err _ => none)) := by
  refine ⟨?_, ?_, mineLoop_processed_clean⟩
  · intro cid now a n m b st hclean h429
    rw [mineLoop_append_clean cid now a st hclean,
      mineLoop_cons_err_429 cid now n b _ h429]
  · intro cid now a n m b st hclean h429 hkey
    rw [mineLoop_append_clean cid now a st hclean,
      mineLoop_cons_err_key cid now n b _ h429 hkey]

/-- A successfully mined business used in the C6 and C7 scenarios. -/
def c6_biz : Lead :=
  { id := "b1", name := "A", phone := "11999998888", whatsappUrl := "",
    status := Status.new, neighborhood := "n1", type := LType.mobile }

theorem c6_witness :
    ((∀ p ∈ [("n1", MineOutcome.ok [c6_biz])], isHalting p.2 = false) ∧
      containsSubstr "error 429: quota" "429" = true ∧
      mineLoop "c1" "t0"
          ([("n1", MineOutcome.ok [c6_biz])]
            ++ ("n2", MineOutcome.err "error 429: quota")
              :: [("n3", MineOutcome.ok [c6_biz])])
          ⟨[], ⟨0, 0, 0, 0⟩, none, []⟩
        = { mineLoop "c1" "t0" [("n1", MineOutcome.ok [c6_biz])]
              ⟨[], ⟨0, 0, 0, 0⟩, none, []⟩ with
            errorMessage := some quotaMsg }) ∧
    (mineLoop "c1" "t0"
        [("n1", MineOutcome.err "some transient failure"),
          ("n2", MineOutcome.ok [c6_biz])]
        ⟨[], ⟨0, 0, 0, 0⟩, none, []⟩).processed
      = [] ++ [("n1", MineOutcome.err "some transient failure"),
          ("n2", MineOutcome.ok [c6_biz])].filterMap (fun p =>
            match p.2 with
            | MineOutcome.ok _ => some p.1
            | MineOutcome.err _ => none) :=
  ⟨⟨by decide, by decide,
      c6_error_classification.1 "c1" "t0" [("n1", MineOutcome.ok [c6_biz])]
        "n2" "error 429: quota" [("n3", MineOutcome.ok [c6_biz])]
        ⟨[], ⟨0, 0, 0, 0⟩, none, []⟩ (by decide) (by decide)⟩,
    c6_error_classification.2.2 "c1" "t0"
      [("n1", MineOutcome.err "some transient failure"),
        ("n2", MineOutcome.ok [c6_biz])]
      ⟨[], ⟨0, 0, 0, 0⟩, none, []⟩ (by decide)⟩

/-! ## Claim C7: auto-navigation after a mining run -/

/-- C7 (code bug): the auto-navigation guard
`if (!errorMessage && totalNew > 0)` reads the stale `errorMessage` value
captured by the running closure, not the message set during the run.  A
run that accepts one lead and then halts on a 429 quota error — so it ends
in error — still navigates; a fully successful run started while an old
error message was displayed does not navigate.  Both contradict the claim
that navigation happens iff the run accepted a lead and did not end in
error. -/
theorem c7_auto_navigate_bug_eval :
    (handleStartMining none "c1" "t0"
        [("n1", MineOutcome.ok [c6_biz]), ("n2", MineOutcome.err "error 429: quota")]
        []).1.errorMessage = some quotaMsg ∧
    (handleStartMining none "c1" "t0"
        [("n1", MineOutcome.ok [c6_biz]), ("n2", MineOutcome.err "error 429: quota")]
        []).1.counts.lnew = 1 ∧
    (handleStartMining none "c1" "t0"
        [("n1", MineOutcome.ok [c6_biz]), ("n2", MineOutcome.err "error 429: quota")]
        []).2 = true ∧
    (handleStartMining (some "stale previous error") "c1" "t0"
        [("n1", MineOutcome.ok [c6_biz])] []).1.errorMessage = none ∧
    (handleStartMining (some "stale previous error") "c1" "t0"
        [("n1", MineOutcome.ok [c6_biz])] []).1.counts.lnew = 1 ∧
    (handleStartMining (some "stale previous error") "c1" "t0"
        [("n1", MineOutcome.ok [c6_biz])] []).2 = false := by
  decide

/-! ## Claims C8 and C10: user-initiated lead updates -/

theorem applyContactClick_getElem (leads : List Lead) (selId : String) (i : Nat)
    (l : Lead) (h : leads[i]? = some l) :
    (applyContactClick leads selId)[i]?
      = some (if l.id == selId then { l with status := Status.contacted } else l) := by
  unfold applyContactClick
  rw [List.getElem?_map, h]
  rfl

/-- A lead already past the `contacted` stage, used against C8. -/
def c8_leadInterested : Lead :=
  { id := "x", name := "A", phone := "11999990001", whatsappUrl := "",
    status := Status.interested, neighborhood := "b", type := LType.mobile,
    campaignId := some "c" }

/-- C8 counterexample: re-triggering the contact action on a lead already
at the `interested` stage does not leave the status unchanged — the click
overwrites it back to `contacted`, contradicting the claimed no-op on
later stages. -/
theorem c8_contact_counterexample :
    c8_leadInterested.status = Status.interested ∧
    applyContactClick [c8_leadInterested] "x" ≠ [c8_leadInterested] ∧
    (applyContactClick [c8_leadInterested] "x").map Lead.status
      = [Status.contacted] := by
  decide

/-- C8 amended: the contact action sets `status` to `contacted` on every
lead whose id matches the selected lead, regardless of the current stage
(`new` becomes `contacted`, and `interested`/`closed`/`rejected` are
overwritten back to `contacted`); the operation is idempotent as a whole
(a second click changes nothing), and a matching lead is still found for
persistence. -/
theorem c8_contact_amended :
    (∀ (leads : List Lead) (selId : String) (i : Nat) (l : Lead),
      leads[i]? = some l →
      (applyContactClick leads selId)[i]?
        = some (if l.id == selId then { l with status := Status.contacted } else l)) ∧
    (∀ (leads : List Lead) (selId : String),
      applyContactClick (applyContactClick leads selId) selId
        = applyContactClick leads selId) ∧
    (∀ (leads : List Lead) (selId : String),
      (∃ l ∈ leads, l.id = selId) →
      (contactPersistPayload (applyContactClick leads selId) selId).isSome = true) := by
  refine ⟨applyContactClick_getElem, ?_, ?_⟩
  · intro leads selId
    unfold applyContactClick
    rw [List.map_map]
    refine List.map_congr_left (fun l _ => ?_)
    by_cases h : (l.id == selId) = true
    · simp only [Function.comp_apply, if_pos h]
    · simp only [Function.comp_apply, if_neg h]
  · intro leads selId hex
    obtain ⟨l, hl, hid⟩ := hex
    unfold contactPersistPayload
    rw [List.find?_isSome]
    refine ⟨if l.id == selId then { l with status := Status.contacted } else l, ?_, ?_⟩
    · exact List.mem_map.mpr ⟨l, hl, rfl⟩
    · rw [if_pos (beq_iff_eq.mpr hid)]
      exact beq_iff_eq.mpr hid

theorem c8_witness :
    ([c8_leadInterested][0]? = some c8_leadInterested) ∧
    (applyContactClick [c8_leadInterested] "x")[0]?
      = some (if c8_leadInterested.id == "x" then
          { c8_leadInterested with status := Status.contacted }
        else c8_leadInterested) :=
  ⟨by decide, c8_contact_amended.1 [c8_leadInterested] "x" 0 c8_leadInterested (by decide)⟩

/-- C10 (implicit): the status-button, pitch-generation and contact-action
updates rewrite every in-memory lead whose `id` equals the selected
lead's, ignoring `campaignId`; in particular a second lead with the same
id under another campaign is overwritten (it no longer appears in the
state after the update). -/
theorem c10_same_id_overwrite :
    (∀ (leads : List Lead) (selected : Lead) (s : Status) (i : Nat) (l : Lead),
      leads[i]? = some l → l.id = selected.id →
      (applyStatusClick leads selected s)[i]? = some { selected with status := s }) ∧
    (∀ (leads : List Lead) (lead : Lead) (pitch : String) (i : Nat) (l : Lead),
      leads[i]? = some l → l.id = lead.id →
      (applyPitchResult leads lead pitch)[i]? = some { lead with notes := some pitch }) ∧
    (∀ (leads : List Lead) (selId : String) (i : Nat) (l : Lead),
      leads[i]? = some l → l.id = selId →
      (applyContactClick leads selId)[i]? = some { l with status := Status.contacted }) ∧
    (∀ (leads : List Lead) (selected : Lead) (s : Status) (l : Lead),
      l ∈ leads → l.id = selected.id → l.campaignId ≠ selected.campaignId →
      l ∉ applyStatusClick leads selected s) := by
  refine ⟨?_, ?_, ?_, ?_⟩
  · intro leads selected s i l h hid
    unfold applyStatusClick
    rw [List.getElem?_map, h, Option.map_some']
    rw [if_pos (beq_iff_eq.mpr hid)]
  · intro leads lead pitch i l h hid
    unfold applyPitchResult
    rw [List.getElem?_map, h, Option.map_some']
    rw [if_pos (beq_iff_eq.mpr hid)]
  · intro leads selId i l h hid
    rw [applyContactClick_getElem leads selId i l h]
    rw [if_pos (beq_iff_eq.mpr hid)]
  · intro leads selected s l hl hid hcid hmem
    rcases List.mem_map.mp hmem with ⟨y, _, hfy⟩
    by_cases hy : (y.id == selected.id) = true
    · rw [if_pos hy] at hfy
      apply hcid
      rw [← hfy]
    · rw [if_neg hy] at hfy
      apply hy
      rw [hfy, hid]
      exact beq_self_eq_true _

/-- A lead in campaign `"1"`, selected for the update. -/
def c10_leadA : Lead :=
  { id := "x", name := "A", phone := "11999990001", whatsappUrl := "",
    status := Status.new, neighborhood := "b", type := LType.mobile,
    campaignId := some "1" }

/-- A lead with the same id in campaign `"2"`, overwritten collaterally. -/
def c10_leadB : Lead :=
  { id := "x", name := "A", phone := "11999990001", whatsappUrl := "",
    status := Status.rejected, neighborhood := "b", type := LType.mobile,
    campaignId := some "2" }

theorem c10_witness :
    (([c10_leadA, c10_leadB][1]? = some c10_leadB) ∧ c10_leadB.id = c10_leadA.id ∧
      c10_leadB.campaignId ≠ c10_leadA.campaignId) ∧
    (applyStatusClick [c10_leadA, c10_leadB] c10_leadA Status.closed)[1]?
      = some { c10_leadA with status := Status.closed } ∧
    c10_leadB ∉ applyStatusClick [c10_leadA, c10_leadB] c10_leadA Status.closed :=
  ⟨⟨by decide, by decide, by decide⟩,
    c10_same_id_overwrite.1 [c10_leadA, c10_leadB] c10_leadA Status.closed 1
      c10_leadB (by decide) (by decide),
    c10_same_id_overwrite.2.2.2 [c10_leadA, c10_leadB] c10_leadA Status.closed
      c10_leadB (by decide) (by decide) (by decide)⟩

end LeadPro
